import Mathlib

/-!
Verification of the arc-standard transition-based dependency parser
(`parser.py`): the `PartialParse` transition system, its dependent
queries, the training oracle `get_oracle`, and the batched driver
`minibatch_parse`.

Modelling conventions:
* The Python stack is stored bottom-first and popped from the end
  (`stack[-1]` is the top).  Here the stack is stored top-first, so
  Python `stack[-1]` is the list head, Python `stack[-2]` is the second
  element, and Python `stack[0]` (the bottom, ROOT) is `getLastD _ 0`.
* Mutation is modelled by returning the updated state; a raised
  `ValueError` is an `Except.error` carrying the message.
  `parse_stepSt` additionally returns the state as it stands at the
  moment of the raise, so that atomicity of failed steps is a theorem
  rather than a modelling artifact.
* `arcs` keeps creation (append) order, as the Python list does.
* Transition identifiers are integers, as in the source
  (`left_arc_id = 0`, `right_arc_id = 1`, `shift_id = 2`).
-/

/-- An arc `(idx_head, idx_dep, deprel)`; the label is `Option String`
because Python's `deprel` argument defaults to `None`. -/
abbrev Arc : Type := Nat × Nat × Option String

/-- A node of an `nltk` `DependencyGraph` as the oracle reads it:
its `address` and its `deps` dictionary (relation label to list of
dependent indices, in dictionary insertion order). -/
structure GNode where
  address : Nat
  deps : List (String × List Nat)
  deriving DecidableEq

/-- The gold dependency graph: the oracle only ever reads
`graph.nodes[i]`, modelled as a total function on indices (nltk's
`nodes` is a defaultdict). -/
structure DepGraph where
  nodes : Nat → GNode

/-- `get_deps`: dependent indices of a node, chained over the `deps`
dictionary values in order. -/
def get_deps (node : GNode) : List Nat :=
  (node.deps.map Prod.snd).flatten

/-- `get_left_deps`: dependents with index below the node's address. -/
def get_left_deps (node : GNode) : List Nat :=
  (get_deps node).filter (fun d => decide (d < node.address))

/-- `get_right_deps`: dependents with index above the node's address. -/
def get_right_deps (node : GNode) : List Nat :=
  (get_deps node).filter (fun d => decide (node.address < d))

/-- The inner double loop shared by `is_left_dep` / `is_right_dep`:
scan the `deps` dictionary in order and return the first relation label
whose dependent list contains `d` (with a found flag). -/
def findRel : List (String × List Nat) → Nat → Bool × Option String
  | [], _ => (false, none)
  | (rel, ds) :: rest, d =>
    if ds.contains d then (true, some rel) else findRel rest d

/-- `is_left_dep` from `get_oracle`: `(False, None)` when the candidate
index exceeds the head's address, else the dictionary scan. -/
def is_left_dep (head_node : GNode) (dep_node : Nat) : Bool × Option String :=
  if head_node.address < dep_node then (false, none)
  else findRel head_node.deps dep_node

/-- `is_right_dep` from `get_oracle`: `(False, None)` when the candidate
index is below the head's address, else the dictionary scan. -/
def is_right_dep (head_node : GNode) (dep_node : Nat) : Bool × Option String :=
  if dep_node < head_node.address then (false, none)
  else findRel head_node.deps dep_node

/-- The state quadruple of `PartialParse`; see the module comment for
the stack orientation. -/
structure PartialParse where
  sentence : List (Option String × String)
  stack : List Nat
  next : Nat
  arcs : List Arc
  deriving DecidableEq

namespace PartialParse

/-- `left_arc_id = 0`. -/
def left_arc_id : Int := 0

/-- `right_arc_id = 1`. -/
def right_arc_id : Int := 1

/-- `shift_id = 2`. -/
def shift_id : Int := 2

/-- `root_tag`, the POS tag reserved for ROOT. -/
def root_tag : String := "TOP"

/-- `__init__`: prepend the `(None, root_tag)` ROOT pair, stack `[0]`,
`next = 1`, no arcs. -/
def initial (sentence : List (String × String)) : PartialParse :=
  { sentence := (none, root_tag) :: sentence.map (fun wt => (some wt.1, wt.2))
    stack := [0]
    next := 1
    arcs := [] }

/-- The `complete` property: buffer empty, a single stack element, and
that element is ROOT. -/
def complete (pp : PartialParse) : Bool :=
  if pp.next = pp.sentence.length then
    match pp.stack with
    | [s] => s == 0
    | _ => false
  else false

/-- `parse_step`, returning the state as it stands when the method
returns or raises, together with the raised message (if any).  Each
branch checks its precondition before any mutation, as in the source. -/
def parse_stepSt (pp : PartialParse) (transition_id : Int)
    (deprel : Option String) : PartialParse × Option String :=
  if transition_id = left_arc_id then
    if pp.stack.length < 3 then (pp, some "Illegal Left Arc")
    else
      match pp.stack with
      | top :: second :: rest =>
        ({ pp with arcs := pp.arcs ++ [(top, second, deprel)]
                   stack := top :: rest }, none)
      | _ => (pp, some "unreachable")
  else if transition_id = right_arc_id then
    if pp.stack.length < 2 then (pp, some "Illegal Left Arc")
    else
      match pp.stack with
      | top :: second :: rest =>
        ({ pp with arcs := pp.arcs ++ [(second, top, deprel)]
                   stack := second :: rest }, none)
      | _ => (pp, some "unreachable")
  else if transition_id = shift_id then
    if pp.next = pp.sentence.length then (pp, some "Illegal Shift")
    else ({ pp with stack := pp.next :: pp.stack, next := pp.next + 1 }, none)
  else (pp, some "Unknown transition")

/-- `parse_step` as a fallible state transformer. -/
def parse_step (pp : PartialParse) (transition_id : Int)
    (deprel : Option String) : Except String PartialParse :=
  match parse_stepSt pp transition_id deprel with
  | (pp', none) => .ok pp'
  | (_, some e) => .error e

end PartialParse

/-- The scanning loop shared by `get_n_leftmost_deps` /
`get_n_rightmost_deps`: walk the given arc list, collect dependents of
`sentence_idx`, and break once the running count reaches a truthy `n`
(`None` never breaks; the count is incremented before the test, and the
matched dependent is appended before breaking, as in the source). -/
def depsLoop (sentence_idx : Nat) (n : Option Nat) :
    List Arc → Nat → List Nat
  | [], _ => []
  | arc :: rest, count =>
    if arc.1 == sentence_idx then
      arc.2.1 ::
        (if (match n with | some k => !(k == 0) && (count + 1 == k) | none => false) then
          []
        else depsLoop sentence_idx n rest (count + 1))
    else depsLoop sentence_idx n rest count

namespace PartialParse

/-- `get_n_leftmost_deps`: early `[]` when `n == 0`, then the scan over
`arcs` in creation order. -/
def get_n_leftmost_deps (pp : PartialParse) (sentence_idx : Nat)
    (n : Option Nat) : List Nat :=
  if n == some 0 then [] else depsLoop sentence_idx n pp.arcs 0

/-- `get_n_rightmost_deps`: early `[]` when `n == 0`, then the scan over
`reversed(arcs)`. -/
def get_n_rightmost_deps (pp : PartialParse) (sentence_idx : Nat)
    (n : Option Nat) : List Nat :=
  if n == some 0 then [] else depsLoop sentence_idx n pp.arcs.reverse 0

/-- `get_oracle`: completion is checked first; then the
stack-size-1 / stack-size-2 special cases; then the generic
left-arc / guarded right-arc / shift decision. -/
def get_oracle (pp : PartialParse) (graph : DepGraph) :
    Except String (Int × Option String) :=
  if pp.complete then .error "PartialParse already completed"
  else if pp.stack.length = 1 then .ok (shift_id, none)
  else if pp.stack.length = 2 then
    if pp.next = pp.sentence.length then
      let rd := is_right_dep (graph.nodes (pp.stack.getLastD 0)) (pp.stack.headD 0)
      if rd.1 then .ok (right_arc_id, rd.2)
      else .error "This should be the last right arc (ROOT)"
    else .ok (shift_id, none)
  else
    let top := pp.stack.headD 0
    let second := pp.stack.tail.headD 0
    let ld := is_left_dep (graph.nodes top) second
    let rd := is_right_dep (graph.nodes second) top
    if ld.1 then .ok (left_arc_id, ld.2)
    else if rd.1 then
      if (get_right_deps (graph.nodes top)).any (fun d => decide (pp.next ≤ d)) then
        .ok (shift_id, none)
      else .ok (right_arc_id, rd.2)
    else .ok (shift_id, none)

end PartialParse

/-- `PartialParse.parse`: apply a list of `(transition_id, deprel)`
pairs with `parse_step`, stopping at the first error. -/
def parseSeq (pp : PartialParse) :
    List (Int × Option String) → Except String PartialParse
  | [] => .ok pp
  | (t, d) :: rest =>
    match pp.parse_step t d with
    | .ok pp' => parseSeq pp' rest
    | .error e => .error e

/-- The `test_oracle` driver loop: repeatedly ask the oracle and apply
its answer until complete, collecting the transition ids (fuelled). -/
def oracleRun : Nat → PartialParse → DepGraph →
    Except String (List Int × PartialParse)
  | 0, _, _ => .error "out of fuel"
  | fuel + 1, pp, graph =>
    if pp.complete then .ok ([], pp)
    else
      match pp.get_oracle graph with
      | .error e => .error e
      | .ok (t, d) =>
        match pp.parse_step t d with
        | .error e => .error e
        | .ok pp' =>
          match oracleRun fuel pp' graph with
          | .error e => .error e
          | .ok (ts, fin) => .ok (t :: ts, fin)

/-- Shared characterization of `complete`: true exactly when the buffer
is exhausted and the stack is the singleton ROOT. -/
theorem complete_true_iff (pp : PartialParse) :
    pp.complete = true ↔ (pp.next = pp.sentence.length ∧ pp.stack = [0]) := by
  rcases pp with ⟨s, st, nx, ar⟩
  simp only [PartialParse.complete]
  by_cases h : nx = s.length
  · rcases st with _ | ⟨a, _ | ⟨b, rest⟩⟩ <;> simp [h]
  · simp [h]

/-- C9: `complete` returns true iff `next == len(sentence)` and the
stack equals `[0]`; it is a pure function of the state. -/
theorem complete_spec (pp : PartialParse) :
    pp.complete = true ↔ (pp.next = pp.sentence.length ∧ pp.stack = [0]) :=
  complete_true_iff pp

/-- C3: each transition has exactly the specified effect.  With the
top-first stack encoding, Python `stack[-1]` is the head `top`, Python
`stack[-2]` is `second`, and Python's `del stack[-2]` / `del stack[-1]`
leave `top :: rest` / `second :: rest`.  The last conjunct is the
label-indifference of `shift`. -/
theorem parse_step_effects (pp : PartialParse) (d : Option String) :
    (∀ top second rest, pp.stack = top :: second :: rest → rest ≠ [] →
      pp.parse_step PartialParse.left_arc_id d =
        .ok { pp with arcs := pp.arcs ++ [(top, second, d)], stack := top :: rest }) ∧
    (∀ top second rest, pp.stack = top :: second :: rest →
      pp.parse_step PartialParse.right_arc_id d =
        .ok { pp with arcs := pp.arcs ++ [(second, top, d)], stack := second :: rest }) ∧
    (pp.next ≠ pp.sentence.length →
      pp.parse_step PartialParse.shift_id d =
        .ok { pp with stack := pp.next :: pp.stack, next := pp.next + 1 }) ∧
    (∀ d', pp.parse_step PartialParse.shift_id d = pp.parse_step PartialParse.shift_id d') := by
  refine ⟨?_, ?_, ?_, ?_⟩
  · intro top second rest hst hne
    rcases rest with _ | ⟨c, rest⟩
    · exact absurd rfl hne
    · simp only [PartialParse.parse_step, PartialParse.parse_stepSt, hst,
        PartialParse.left_arc_id]
      split_ifs <;> first | rfl | omega | (simp_all; omega) | simp_all
  · intro top second rest hst
    simp only [PartialParse.parse_step, PartialParse.parse_stepSt, hst,
      PartialParse.left_arc_id, PartialParse.right_arc_id]
    split_ifs <;> first | rfl | omega | (simp_all; omega) | simp_all
  · intro h
    simp [PartialParse.parse_step, PartialParse.parse_stepSt, h,
      PartialParse.left_arc_id, PartialParse.right_arc_id, PartialParse.shift_id]
  · intro d'
    simp [PartialParse.parse_step, PartialParse.parse_stepSt,
      PartialParse.left_arc_id, PartialParse.right_arc_id, PartialParse.shift_id]

/-- Witness for C3 at a concrete configuration. -/
theorem parse_step_effects_witness :
    (PartialParse.mk [(none, "TOP"), (some "w", "t")] [2, 1, 0] 3 []).parse_step
        PartialParse.left_arc_id (some "x") =
      .ok (PartialParse.mk [(none, "TOP"), (some "w", "t")] [2, 0] 3 [(2, 1, some "x")]) :=
  (parse_step_effects (PartialParse.mk [(none, "TOP"), (some "w", "t")] [2, 1, 0] 3 [])
    (some "x")).1 2 1 [0] rfl (by decide)

/-- Whether a `parse_step` call succeeded. -/
def stepOk : Except String PartialParse → Bool
  | .ok _ => true
  | .error _ => false

/-- C4: `parse_step` fails exactly when the requested transition's
precondition is violated, and any unknown transition id always fails. -/
theorem parse_step_error_conditions (pp : PartialParse) (d : Option String) :
    (stepOk (pp.parse_step PartialParse.left_arc_id d) = true ↔ 3 ≤ pp.stack.length) ∧
    (stepOk (pp.parse_step PartialParse.right_arc_id d) = true ↔ 2 ≤ pp.stack.length) ∧
    (stepOk (pp.parse_step PartialParse.shift_id d) = true ↔ pp.next ≠ pp.sentence.length) ∧
    (∀ t : Int, t ≠ PartialParse.left_arc_id → t ≠ PartialParse.right_arc_id →
      t ≠ PartialParse.shift_id → stepOk (pp.parse_step t d) = false) := by
  refine ⟨?_, ?_, ?_, ?_⟩
  · rcases pp with ⟨s, st, nx, ar⟩
    rcases st with _ | ⟨a, _ | ⟨b, _ | ⟨c, rest⟩⟩⟩ <;>
      · simp only [PartialParse.parse_step, PartialParse.parse_stepSt,
          PartialParse.left_arc_id]
        split_ifs <;> first | rfl | omega | (simp_all [stepOk]; omega) | simp_all [stepOk]
  · rcases pp with ⟨s, st, nx, ar⟩
    rcases st with _ | ⟨a, _ | ⟨b, rest⟩⟩ <;>
      · simp only [PartialParse.parse_step, PartialParse.parse_stepSt,
          PartialParse.left_arc_id, PartialParse.right_arc_id]
        split_ifs <;> first | rfl | omega | (simp_all [stepOk]; omega) | simp_all [stepOk]
  · by_cases h : pp.next = pp.sentence.length <;>
      simp [PartialParse.parse_step, PartialParse.parse_stepSt, stepOk, h,
        PartialParse.left_arc_id, PartialParse.right_arc_id, PartialParse.shift_id]
  · intro t h0 h1 h2
    simp [PartialParse.parse_step, PartialParse.parse_stepSt, stepOk, h0, h1, h2]

/-- Witness for C4 at a concrete configuration and transition id. -/
theorem parse_step_error_conditions_witness :
    stepOk ((PartialParse.mk [(none, "TOP")] [0] 1 []).parse_step 5 none) = false :=
  (parse_step_error_conditions (PartialParse.mk [(none, "TOP")] [0] 1 []) none).2.2.2
    5 (by decide) (by decide) (by decide)

/-- C10: failed transitions are atomic — whenever `parse_step` raises,
the state at the moment of the raise is the original state (each
precondition is checked before any mutation). -/
theorem parse_step_atomic (pp : PartialParse) (t : Int) (d : Option String)
    (e : String) (h : (pp.parse_stepSt t d).2 = some e) :
    (pp.parse_stepSt t d).1 = pp := by
  rcases pp with ⟨s, st, nx, ar⟩
  rcases st with _ | ⟨a, _ | ⟨b, r⟩⟩ <;>
    · simp only [PartialParse.parse_stepSt] at h ⊢
      split_ifs at h ⊢ <;> simp_all

/-- Witness for C10: an illegal left-arc leaves the state unchanged. -/
theorem parse_step_atomic_witness :
    ((PartialParse.mk [(none, "TOP")] [0] 1 []).parse_stepSt
      PartialParse.left_arc_id none).1 = PartialParse.mk [(none, "TOP")] [0] 1 [] :=
  parse_step_atomic (PartialParse.mk [(none, "TOP")] [0] 1 [])
    PartialParse.left_arc_id none "Illegal Left Arc" (by decide)

/-- The five-word test sentence of `test_oracle`. -/
def sentence5 : List (String × String) :=
  [("word_1", "tag_1"), ("word_2", "tag_2"), ("word_3", "tag_3"),
   ("word_4", "tag_4"), ("word_5", "tag_5")]

/-- The gold graph of `test_oracle`: heads `1 -> ROOT`, `2 -> 3`,
`3 -> 5`, `4 -> 3`, `5 -> 1` with labels `ROOT`, `deprel_2` ... -/
def goldGraph5 : DepGraph :=
  ⟨fun i =>
    match i with
    | 0 => ⟨0, [("ROOT", [1])]⟩
    | 1 => ⟨1, [("deprel_5", [5])]⟩
    | 2 => ⟨2, []⟩
    | 3 => ⟨3, [("deprel_2", [2]), ("deprel_4", [4])]⟩
    | 4 => ⟨4, []⟩
    | 5 => ⟨5, [("deprel_3", [3])]⟩
    | n => ⟨n, []⟩⟩

/-- The final state of the oracle round trip on `sentence5`. -/
def ppFinal5 : PartialParse :=
  { sentence :=
      [(none, "TOP"), (some "word_1", "tag_1"), (some "word_2", "tag_2"),
       (some "word_3", "tag_3"), (some "word_4", "tag_4"), (some "word_5", "tag_5")]
    stack := [0]
    next := 6
    arcs := [(3, 2, some "deprel_2"), (3, 4, some "deprel_4"),
             (5, 3, some "deprel_3"), (1, 5, some "deprel_5"),
             (0, 1, some "ROOT")] }

/-- C2: driving a fresh `PartialParse` on `sentence5` with the oracle
until completion yields exactly the transition sequence
shift, shift, shift, left-arc, shift, right-arc, shift, left-arc,
right-arc, right-arc, and the final arcs equal the gold set as
unordered triples. -/
theorem oracle_round_trip_example :
    oracleRun 20 (PartialParse.initial sentence5) goldGraph5 =
      .ok ([PartialParse.shift_id, PartialParse.shift_id, PartialParse.shift_id,
            PartialParse.left_arc_id, PartialParse.shift_id, PartialParse.right_arc_id,
            PartialParse.shift_id, PartialParse.left_arc_id, PartialParse.right_arc_id,
            PartialParse.right_arc_id], ppFinal5) ∧
    List.Perm ppFinal5.arcs
      [(0, 1, some "ROOT"), (3, 2, some "deprel_2"), (5, 3, some "deprel_3"),
       (3, 4, some "deprel_4"), (1, 5, some "deprel_5")] :=
  ⟨rfl, by decide⟩

/-- `depsLoop` with `n = None` collects every dependent of the node, in
scan order. -/
theorem depsLoop_none (i : Nat) :
    ∀ (l : List Arc) (c : Nat),
      depsLoop i none l c = (l.filter (fun a => a.1 == i)).map (fun a => a.2.1)
  | [], _ => rfl
  | arc :: rest, c => by
    by_cases h : arc.1 = i <;>
      simp [depsLoop, h, depsLoop_none i rest]

/-- `depsLoop` with a positive bound `k` and running count `c < k`
collects the first `k - c` dependents in scan order. -/
theorem depsLoop_some (i k : Nat) :
    ∀ (l : List Arc) (c : Nat), c < k →
      depsLoop i (some k) l c =
        ((l.filter (fun a => a.1 == i)).map (fun a => a.2.1)).take (k - c)
  | [], _, _ => by simp [depsLoop]
  | arc :: rest, c, hc => by
    by_cases h : arc.1 = i
    · by_cases hk : c + 1 = k
      · have hkc : k - c = 1 := by omega
        simp [depsLoop, h, hk, hkc, (by omega : ¬ k = 0)]
        exact fun h0 => absurd h0 (by omega)
      · have hlt : c + 1 < k := by omega
        have hkc : k - c = (k - (c + 1)) + 1 := by omega
        simp [depsLoop, h, hk, depsLoop_some i k rest (c + 1) hlt, hkc,
          (by omega : ¬ k = 0)]
    · simp [depsLoop, h, depsLoop_some i k rest c hc]

/-- C8 (amended): both queries return the head-filtered arc scan in
creation order (leftmost) respectively reverse creation order
(rightmost), truncated to `n` when given, with `n = 0` giving `[]`;
no sortedness of the result is guaranteed. -/
theorem deps_query_spec (pp : PartialParse) (sentence_idx : Nat) :
    (pp.get_n_leftmost_deps sentence_idx none =
      (pp.arcs.filter (fun a => a.1 == sentence_idx)).map (fun a => a.2.1)) ∧
    (∀ k, pp.get_n_leftmost_deps sentence_idx (some k) =
      ((pp.arcs.filter (fun a => a.1 == sentence_idx)).map (fun a => a.2.1)).take k) ∧
    (pp.get_n_rightmost_deps sentence_idx none =
      (pp.arcs.reverse.filter (fun a => a.1 == sentence_idx)).map (fun a => a.2.1)) ∧
    (∀ k, pp.get_n_rightmost_deps sentence_idx (some k) =
      ((pp.arcs.reverse.filter (fun a => a.1 == sentence_idx)).map (fun a => a.2.1)).take k) := by
  refine ⟨?_, ?_, ?_, ?_⟩
  · simp [PartialParse.get_n_leftmost_deps, depsLoop_none]
  · intro k
    rcases Nat.eq_zero_or_pos k with hk | hk
    · simp [PartialParse.get_n_leftmost_deps, hk]
    · simp [PartialParse.get_n_leftmost_deps, (by omega : ¬ k = 0),
        depsLoop_some sentence_idx k pp.arcs 0 hk]
      exact fun h0 => absurd h0 (by omega)
  · simp [PartialParse.get_n_rightmost_deps, depsLoop_none]
  · intro k
    rcases Nat.eq_zero_or_pos k with hk | hk
    · simp [PartialParse.get_n_rightmost_deps, hk]
    · simp [PartialParse.get_n_rightmost_deps, (by omega : ¬ k = 0),
        depsLoop_some sentence_idx k pp.arcs.reverse 0 hk]
      exact fun h0 => absurd h0 (by omega)

/-- A three-word sentence used by several concrete states. -/
def sentence3 : List (String × String) :=
  [("word_1", "tag_1"), ("word_2", "tag_2"), ("word_3", "tag_3")]

/-- A reachable configuration in which word 3 has taken its two left
dependents: arcs were created right-to-left, `[(3,2),(3,1)]`. -/
def ppLeftDeps : PartialParse :=
  { sentence :=
      [(none, "TOP"), (some "word_1", "tag_1"), (some "word_2", "tag_2"),
       (some "word_3", "tag_3")]
    stack := [3, 0]
    next := 4
    arcs := [(3, 2, some "a"), (3, 1, some "b")] }

/-- C8 counterexample: on a configuration reached by legal transitions,
`get_n_leftmost_deps` returns `[2, 1]` — creation order, not
nearest-to-sentence-start (ascending) order as the claim states. -/
theorem deps_order_claim_fails :
    parseSeq (PartialParse.initial sentence3)
      [(PartialParse.shift_id, none), (PartialParse.shift_id, none),
       (PartialParse.shift_id, none), (PartialParse.left_arc_id, some "a"),
       (PartialParse.left_arc_id, some "b")] = .ok ppLeftDeps ∧
    ppLeftDeps.get_n_leftmost_deps 3 none = [2, 1] ∧
    ¬ List.Chain' (fun a b => a ≤ b) (ppLeftDeps.get_n_leftmost_deps 3 none) :=
  ⟨rfl, rfl, fun h => by
    have h2 : List.Chain' (fun a b => a ≤ b) [2, 1] := h
    simp [List.chain'_cons] at h2⟩

/-- The configuration invariant exactly as the claim states it,
including the (too strong) requirement `next < len(sentence)`. -/
def ClaimedInv (pp : PartialParse) : Prop :=
  pp.stack ≠ [] ∧ pp.stack.getLastD 0 = 0 ∧
  1 ≤ pp.next ∧ pp.next ≤ pp.sentence.length ∧
  (∀ i ∈ pp.stack, i < pp.sentence.length) ∧
  (∀ a ∈ pp.arcs, a.1 < pp.sentence.length ∧ a.2.1 < pp.sentence.length) ∧
  pp.next < pp.sentence.length

/-- The configuration invariant without the `next < len(sentence)`
conjunct (the frontier may reach `len(sentence)` when the buffer
empties). -/
def ConfigInv (pp : PartialParse) : Prop :=
  pp.stack ≠ [] ∧ pp.stack.getLastD 0 = 0 ∧
  1 ≤ pp.next ∧ pp.next ≤ pp.sentence.length ∧
  (∀ i ∈ pp.stack, i < pp.sentence.length) ∧
  (∀ a ∈ pp.arcs, a.1 < pp.sentence.length ∧ a.2.1 < pp.sentence.length)

/-- C5 counterexample: a legal shift from the initial configuration of
a one-word sentence satisfies the claimed invariant before the step but
violates it after (`next` becomes `len(sentence)`). -/
theorem invariant_claim_fails :
    ClaimedInv (PartialParse.initial [("word_1", "tag_1")]) ∧
    (PartialParse.initial [("word_1", "tag_1")]).parse_step
        PartialParse.shift_id none =
      .ok (PartialParse.mk [(none, "TOP"), (some "word_1", "tag_1")] [1, 0] 2 []) ∧
    ¬ ClaimedInv (PartialParse.mk [(none, "TOP"), (some "word_1", "tag_1")] [1, 0] 2 []) :=
  ⟨by constructor <;> simp [PartialParse.initial, ClaimedInv], rfl,
   by intro h; exact absurd h.2.2.2.2.2.2 (by decide)⟩

/-- Field-wise case analysis of a successful `parse_step`. -/
theorem parse_step_ok_cases (pp pp' : PartialParse) (t : Int) (d : Option String)
    (h : pp.parse_step t d = .ok pp') :
    (∃ top second rest, pp.stack = top :: second :: rest ∧ rest ≠ [] ∧
      t = PartialParse.left_arc_id ∧
      pp'.sentence = pp.sentence ∧ pp'.stack = top :: rest ∧ pp'.next = pp.next ∧
      pp'.arcs = pp.arcs ++ [(top, second, d)]) ∨
    (∃ top second rest, pp.stack = top :: second :: rest ∧
      t = PartialParse.right_arc_id ∧
      pp'.sentence = pp.sentence ∧ pp'.stack = second :: rest ∧ pp'.next = pp.next ∧
      pp'.arcs = pp.arcs ++ [(second, top, d)]) ∨
    (pp.next ≠ pp.sentence.length ∧ t = PartialParse.shift_id ∧
      pp'.sentence = pp.sentence ∧ pp'.stack = pp.next :: pp.stack ∧
      pp'.next = pp.next + 1 ∧ pp'.arcs = pp.arcs) := by
  by_cases h0 : t = PartialParse.left_arc_id
  · subst h0
    left
    rcases hs : pp.stack with _ | ⟨a, _ | ⟨b, _ | ⟨c, rest⟩⟩⟩ <;>
      rw [PartialParse.parse_step, PartialParse.parse_stepSt] at h <;>
      simp [hs] at h
    obtain ⟨s', st', nx', ar'⟩ := pp'
    rw [if_neg (by omega : ¬ (rest.length + 1 + 1 + 1 < 3))] at h
    refine ⟨a, b, c :: rest, rfl, by simp, rfl, ?_, ?_, ?_, ?_⟩ <;> simp_all
  · by_cases h1 : t = PartialParse.right_arc_id
    · subst h1
      right; left
      rcases hs : pp.stack with _ | ⟨a, _ | ⟨b, rest⟩⟩ <;>
        rw [PartialParse.parse_step, PartialParse.parse_stepSt] at h <;>
        simp [hs, h0, PartialParse.left_arc_id, PartialParse.right_arc_id] at h
      obtain ⟨s', st', nx', ar'⟩ := pp'
      rw [if_neg (by omega : ¬ (rest.length + 1 + 1 < 2))] at h
      refine ⟨a, b, rest, rfl, rfl, ?_, ?_, ?_, ?_⟩ <;> simp_all
    · by_cases h2 : t = PartialParse.shift_id
      · subst h2
        right; right
        rw [PartialParse.parse_step, PartialParse.parse_stepSt] at h
        by_cases hn : pp.next = pp.sentence.length <;>
          simp [hn, h0, h1, PartialParse.left_arc_id, PartialParse.right_arc_id,
            PartialParse.shift_id] at h
        obtain ⟨s', st', nx', ar'⟩ := pp'
        refine ⟨hn, rfl, ?_, ?_, ?_, ?_⟩ <;> simp_all
      · rw [PartialParse.parse_step, PartialParse.parse_stepSt] at h
        simp [h0, h1, h2] at h

/-- C5 (amended): every successful transition preserves the
configuration invariant with `frontier ∈ [1, len(sentence)]` (the
claimed extra requirement `frontier < len(sentence)` is not
preserved). -/
theorem invariant_preserved (pp pp' : PartialParse) (t : Int) (d : Option String)
    (h : pp.parse_step t d = .ok pp') (hinv : ConfigInv pp) : ConfigInv pp' := by
  obtain ⟨hne, hbot, h1, h2, hst, har⟩ := hinv
  rcases parse_step_ok_cases pp pp' t d h with
    ⟨a, b, rest, hs, hrne, -, hsen, hstk, hnx, harcs⟩ |
    ⟨a, b, rest, hs, -, hsen, hstk, hnx, harcs⟩ |
    ⟨hnlt, -, hsen, hstk, hnx, harcs⟩
  · rcases rest with _ | ⟨c, rest⟩
    · exact absurd rfl hrne
    · refine ⟨by simp [hstk], ?_, by omega, by rw [hsen]; omega, ?_, ?_⟩
      · rw [hstk]
        have := hbot
        rw [hs] at this
        simpa [List.getLastD_cons] using this
      · intro i hi
        rw [hsen]
        exact hst i (by rw [hs]; rw [hstk] at hi; simp at hi ⊢; tauto)
      · intro x hx
        rw [hsen]
        rw [harcs] at hx
        rcases List.mem_append.mp hx with hx | hx
        · exact har x hx
        · have hxa : x = (a, b, d) := by simpa using hx
          subst hxa
          exact ⟨hst a (by rw [hs]; simp), hst b (by rw [hs]; simp)⟩
  · refine ⟨by simp [hstk], ?_, by omega, by rw [hsen]; omega, ?_, ?_⟩
    · rw [hstk]
      have := hbot
      rw [hs] at this
      rcases rest with _ | ⟨c, rest⟩ <;> simpa [List.getLastD_cons] using this
    · intro i hi
      rw [hsen]
      exact hst i (by rw [hs]; rw [hstk] at hi; simp at hi ⊢; tauto)
    · intro x hx
      rw [hsen]
      rw [harcs] at hx
      rcases List.mem_append.mp hx with hx | hx
      · exact har x hx
      · have hxa : x = (b, a, d) := by simpa using hx
        subst hxa
        exact ⟨hst b (by rw [hs]; simp), hst a (by rw [hs]; simp)⟩
  · have hlt : pp.next < pp.sentence.length := by omega
    refine ⟨by simp [hstk], ?_, by omega, by rw [hsen]; omega, ?_, ?_⟩
    · rw [hstk]
      rcases hs : pp.stack with _ | ⟨a, rest⟩
      · exact absurd hs hne
      · have := hbot
        rw [hs] at this
        simpa [List.getLastD_cons] using this
    · intro i hi
      rw [hsen]
      rw [hstk] at hi
      rcases List.mem_cons.mp hi with hi | hi
      · omega
      · exact hst i hi
    · intro x hx
      rw [hsen]
      rw [harcs] at hx
      exact har x hx

/-- Witness for C5's amended theorem: a shift from a one-word initial
configuration preserves `ConfigInv`. -/
theorem invariant_preserved_witness :
    ConfigInv (PartialParse.mk [(none, "TOP"), (some "word_1", "tag_1")] [1, 0] 2 []) :=
  invariant_preserved (PartialParse.initial [("word_1", "tag_1")])
    (PartialParse.mk [(none, "TOP"), (some "word_1", "tag_1")] [1, 0] 2 [])
    PartialParse.shift_id none rfl
    (by refine ⟨by simp [PartialParse.initial], ?_, ?_, ?_, ?_, ?_⟩ <;>
      simp [PartialParse.initial])

/-- Number of shift transitions in a transition/label list. -/
def countShift (tds : List (Int × Option String)) : Nat :=
  tds.countP (fun td => td.1 == PartialParse.shift_id)

/-- Number of arc (left- or right-) transitions in a transition/label
list. -/
def countArc (tds : List (Int × Option String)) : Nat :=
  tds.countP
    (fun td => td.1 == PartialParse.left_arc_id || td.1 == PartialParse.right_arc_id)

/-- The dependents recorded in the arc list, in creation order. -/
def depList (pp : PartialParse) : List Nat :=
  pp.arcs.map (fun a => a.2.1)

/-- Bookkeeping of one successful step: a shift grows the stack and
the frontier, an arc moves one index from the stack to the dependent
list; in both cases the combined stack-plus-dependents collection is
preserved up to the shifted-in index. -/
theorem parse_step_stack_deps (pp pp' : PartialParse) (t : Int) (d : Option String)
    (h : pp.parse_step t d = .ok pp') :
    pp'.sentence = pp.sentence ∧
    ((t = PartialParse.shift_id ∧ pp'.next = pp.next + 1 ∧
       pp'.stack.length = pp.stack.length + 1 ∧ pp'.arcs.length = pp.arcs.length ∧
       List.Perm (pp'.stack ++ depList pp') (pp.next :: (pp.stack ++ depList pp)))
     ∨ ((t = PartialParse.left_arc_id ∨ t = PartialParse.right_arc_id) ∧
        pp'.next = pp.next ∧ pp'.stack.length + 1 = pp.stack.length ∧
        pp'.arcs.length = pp.arcs.length + 1 ∧
        List.Perm (pp'.stack ++ depList pp') (pp.stack ++ depList pp))) := by
  rcases parse_step_ok_cases pp pp' t d h with
    ⟨a, b, rest, hs, hrne, ht, hsen, hstk, hnx, harcs⟩ |
    ⟨a, b, rest, hs, ht, hsen, hstk, hnx, harcs⟩ |
    ⟨hnlt, ht, hsen, hstk, hnx, harcs⟩
  · refine ⟨hsen, Or.inr ⟨Or.inl ht, hnx, by rw [hstk, hs]; simp, by rw [harcs]; simp, ?_⟩⟩
    rw [hstk, hs]
    have hdl : depList pp' = depList pp ++ [b] := by
      rw [depList, harcs]; simp [depList]
    rw [hdl]
    have e1 : (a :: rest) ++ (depList pp ++ [b]) =
        a :: ((rest ++ depList pp) ++ [b]) := by simp
    have e2 : (a :: b :: rest) ++ depList pp =
        a :: (b :: (rest ++ depList pp)) := by simp
    rw [e1, e2]
    exact List.Perm.cons a (List.perm_append_singleton b (rest ++ depList pp))
  · refine ⟨hsen, Or.inr ⟨Or.inr ht, hnx, by rw [hstk, hs]; simp, by rw [harcs]; simp, ?_⟩⟩
    rw [hstk, hs]
    have hdl : depList pp' = depList pp ++ [a] := by
      rw [depList, harcs]; simp [depList]
    rw [hdl]
    have e1 : (b :: rest) ++ (depList pp ++ [a]) =
        b :: ((rest ++ depList pp) ++ [a]) := by simp
    have e2 : (a :: b :: rest) ++ depList pp =
        a :: (b :: (rest ++ depList pp)) := by simp
    rw [e1, e2]
    exact List.Perm.trans
      (List.Perm.cons b (List.perm_append_singleton a (rest ++ depList pp)))
      (List.Perm.swap a b (rest ++ depList pp))
  · refine ⟨hsen, Or.inl ⟨ht, hnx, by rw [hstk]; simp, by rw [harcs], ?_⟩⟩
    have hdl : depList pp' = depList pp := by rw [depList, harcs, depList]
    rw [hstk, hdl]
    simp

/-- Cumulative bookkeeping over a successful transition sequence. -/
theorem parseSeq_inv :
    ∀ (tds : List (Int × Option String)) (pp pp' : PartialParse),
      parseSeq pp tds = .ok pp' →
      pp'.sentence = pp.sentence ∧
      pp'.next = pp.next + countShift tds ∧
      pp'.stack.length + countArc tds = pp.stack.length + countShift tds ∧
      pp'.arcs.length = pp.arcs.length + countArc tds ∧
      countShift tds + countArc tds = tds.length ∧
      (List.Perm (pp.stack ++ depList pp) (List.range pp.next) →
        List.Perm (pp'.stack ++ depList pp') (List.range pp'.next))
  | [], pp, pp', h => by
    have hpp : pp = pp' := by
      simpa [parseSeq] using h
    subst hpp
    simp [countShift, countArc]
  | (t, d) :: rest, pp, pp', h => by
    rcases hstep : pp.parse_step t d with e | pp1
    · rw [parseSeq, hstep] at h
      exact absurd h (by simp)
    · rw [parseSeq, hstep] at h
      obtain ⟨ihs, ihn, ihl, iha, ihc, ihp⟩ := parseSeq_inv rest pp1 pp' h
      obtain ⟨hsen, hcase⟩ := parse_step_stack_deps pp pp1 t d hstep
      rcases hcase with ⟨ht, hn, hl, ha, hperm⟩ | ⟨ht, hn, hl, ha, hperm⟩
      · subst ht
        have hcs : countShift ((PartialParse.shift_id, d) :: rest) = countShift rest + 1 := by
          simp [countShift, List.countP_cons]
        have hca : countArc ((PartialParse.shift_id, d) :: rest) = countArc rest := by
          simp [countArc, List.countP_cons, PartialParse.shift_id,
            PartialParse.left_arc_id, PartialParse.right_arc_id]
        refine ⟨ihs.trans hsen, by omega, by omega, by omega, by simp [hcs, hca]; omega, ?_⟩
        intro hp0
        apply ihp
        rw [hn, List.range_succ]
        exact hperm.trans ((hp0.cons pp.next).trans
          (List.perm_append_singleton pp.next (List.range pp.next)).symm)
      · have hcs : countShift ((t, d) :: rest) = countShift rest := by
          rcases ht with ht | ht <;> subst ht <;>
            simp [countShift, List.countP_cons, PartialParse.shift_id,
              PartialParse.left_arc_id, PartialParse.right_arc_id]
        have hca : countArc ((t, d) :: rest) = countArc rest + 1 := by
          rcases ht with ht | ht <;> subst ht <;>
            simp [countArc, List.countP_cons, PartialParse.left_arc_id,
              PartialParse.right_arc_id]
        refine ⟨ihs.trans hsen, by omega, by omega, by omega, by simp [hcs, hca]; omega, ?_⟩
        intro hp0
        apply ihp
        rw [hn]
        exact hperm.trans hp0

/-- C6: a successful transition sequence from the initial configuration
to a complete one has exactly `2 n` transitions — `n` shifts and `n`
arc operations — and its final arc list has `n` arcs in which every
sentence index `1..n` occurs as a dependent exactly once. -/
theorem parse_complete_counts (s : List (String × String))
    (tds : List (Int × Option String)) (pp' : PartialParse)
    (h : parseSeq (PartialParse.initial s) tds = .ok pp')
    (hc : pp'.complete = true) :
    tds.length = 2 * s.length ∧ countShift tds = s.length ∧
    countArc tds = s.length ∧ pp'.arcs.length = s.length ∧
    (∀ i, 1 ≤ i → i ≤ s.length → (depList pp').count i = 1) := by
  obtain ⟨hsen, hn, hl, ha, hcnt, hperm⟩ := parseSeq_inv tds (PartialParse.initial s) pp' h
  obtain ⟨hnext, hstack⟩ := (complete_true_iff pp').mp hc
  have hlen : pp'.sentence.length = s.length + 1 := by
    rw [hsen]; simp [PartialParse.initial]
  have hinitn : (PartialParse.initial s).next = 1 := rfl
  have hinitl : (PartialParse.initial s).stack.length = 1 := rfl
  have hinita : (PartialParse.initial s).arcs.length = 0 := rfl
  have hstack1 : pp'.stack.length = 1 := by rw [hstack]; rfl
  have hshift : countShift tds = s.length := by omega
  have harc : countArc tds = s.length := by omega
  have hp' : List.Perm (pp'.stack ++ depList pp') (List.range pp'.next) := by
    apply hperm
    show List.Perm ([0] ++ depList (PartialParse.initial s)) (List.range 1)
    simp [depList, PartialParse.initial, List.range_succ]
  refine ⟨by omega, hshift, harc, by omega, ?_⟩
  intro i h1 h2
  have hcount := hp'.count_eq i
  rw [hstack] at hcount
  have hr : (List.range pp'.next).count i = 1 := by
    apply List.count_eq_one_of_mem (List.nodup_range pp'.next)
    rw [List.mem_range]
    omega
  rw [hr] at hcount
  rw [List.count_append] at hcount
  have h0 : List.count i [0] = 0 := by
    simp [List.count_singleton]
    omega
  omega

/-- Witness for C6: the complete six-transition parse of the three-word
test sentence. -/
theorem parse_complete_counts_witness :
    ([(PartialParse.shift_id, none), (PartialParse.shift_id, none),
      (PartialParse.shift_id, none), (PartialParse.left_arc_id, some "a"),
      (PartialParse.right_arc_id, some "b"),
      (PartialParse.right_arc_id, some "c")] : List (Int × Option String)).length =
        2 * sentence3.length ∧
    countShift [(PartialParse.shift_id, none), (PartialParse.shift_id, none),
      (PartialParse.shift_id, none), (PartialParse.left_arc_id, some "a"),
      (PartialParse.right_arc_id, some "b"), (PartialParse.right_arc_id, some "c")] =
        sentence3.length ∧
    countArc [(PartialParse.shift_id, none), (PartialParse.shift_id, none),
      (PartialParse.shift_id, none), (PartialParse.left_arc_id, some "a"),
      (PartialParse.right_arc_id, some "b"), (PartialParse.right_arc_id, some "c")] =
        sentence3.length ∧
    (PartialParse.mk
      [(none, "TOP"), (some "word_1", "tag_1"), (some "word_2", "tag_2"),
       (some "word_3", "tag_3")] [0] 4
      [(3, 2, some "a"), (1, 3, some "b"), (0, 1, some "c")]).arcs.length =
        sentence3.length ∧
    (∀ i, 1 ≤ i → i ≤ sentence3.length →
      (depList (PartialParse.mk
        [(none, "TOP"), (some "word_1", "tag_1"), (some "word_2", "tag_2"),
         (some "word_3", "tag_3")] [0] 4
        [(3, 2, some "a"), (1, 3, some "b"), (0, 1, some "c")])).count i = 1) :=
  parse_complete_counts sentence3
    [(PartialParse.shift_id, none), (PartialParse.shift_id, none),
     (PartialParse.shift_id, none), (PartialParse.left_arc_id, some "a"),
     (PartialParse.right_arc_id, some "b"), (PartialParse.right_arc_id, some "c")]
    (PartialParse.mk
      [(none, "TOP"), (some "word_1", "tag_1"), (some "word_2", "tag_2"),
       (some "word_3", "tag_3")] [0] 4
      [(3, 2, some "a"), (1, 3, some "b"), (0, 1, some "c")])
    rfl rfl

/-- The gold tree's recorded relation label between head `hd` and
dependent `dp`: the first label in `hd`'s dependency map whose
dependent list contains `dp`.  This follows the spec's reading "the
label taken from the gold tree's recorded relation". -/
def goldRel (n : GNode) (dp : Nat) : Option String :=
  (n.deps.find? (fun p => p.2.contains dp)).map Prod.fst

/-- Whether the gold tree records `hd` as the head of `dp`.  This
follows the spec's phrase "gold records `hd` as head of `dp`". -/
def goldRecordsDep (g : DepGraph) (hd dp : Nat) : Bool :=
  (get_deps (g.nodes hd)).contains dp

/-- The oracle decision procedure exactly as the spec's §4.2 words it:
(1) lone ROOT stack shifts; (2) ROOT plus one word right-arcs from ROOT
with the dynamically read gold label when the buffer is empty, else
shifts; (3) otherwise left-arc when gold records `top` as head of
`second` (a dependent with index at most `top`'s address), else — when
gold records `second` as head of `top` — shift when `top` still has a
gold dependent at or beyond the frontier and right-arc otherwise, else
shift. -/
def oracleSpecStep (pp : PartialParse) (g : DepGraph) : Int × Option String :=
  if pp.stack.length = 1 then (PartialParse.shift_id, none)
  else if pp.stack.length = 2 then
    if pp.next = pp.sentence.length then
      (PartialParse.right_arc_id, goldRel (g.nodes 0) (pp.stack.headD 0))
    else (PartialParse.shift_id, none)
  else
    let top := pp.stack.headD 0
    let second := pp.stack.tail.headD 0
    if goldRecordsDep g top second && decide (second ≤ (g.nodes top).address) then
      (PartialParse.left_arc_id, goldRel (g.nodes top) second)
    else if goldRecordsDep g second top then
      if (get_deps (g.nodes top)).any (fun x => decide (pp.next ≤ x)) then
        (PartialParse.shift_id, none)
      else (PartialParse.right_arc_id, goldRel (g.nodes second) top)
    else (PartialParse.shift_id, none)

/-- The found flag of the dictionary scan is membership of the
candidate among all dependents. -/
theorem findRel_fst (d : Nat) :
    ∀ l : List (String × List Nat),
      (findRel l d).1 = (l.map Prod.snd).flatten.contains d
  | [] => rfl
  | (rel, ds) :: rest => by
    by_cases h : d ∈ ds <;> simp [findRel, h, findRel_fst d rest]

/-- The label of the dictionary scan is the label of the first entry
containing the candidate. -/
theorem findRel_snd (d : Nat) :
    ∀ l : List (String × List Nat),
      (findRel l d).2 = (l.find? (fun p => p.2.contains d)).map Prod.fst
  | [] => rfl
  | (rel, ds) :: rest => by
    by_cases h : d ∈ ds <;> simp [findRel, h, findRel_snd d rest]

/-- Filtering to right dependents does not change whether some
dependent lies at or beyond the frontier, provided the node's address
is below the frontier. -/
theorem any_filter_ge (bnd nx : Nat) (hlt : bnd < nx) :
    ∀ l : List Nat,
      (l.filter (fun x => decide (bnd < x))).any (fun x => decide (nx ≤ x)) =
        l.any (fun x => decide (nx ≤ x))
  | [] => rfl
  | x :: xs => by
    by_cases hx : bnd < x
    · by_cases hnx : nx ≤ x <;> simp [hx, hnx, any_filter_ge bnd nx hlt xs]
    · have hnx : ¬ nx ≤ x := by omega
      simp [hx, hnx, any_filter_ge bnd nx hlt xs]

/-- C1: on any configuration satisfying the reachability invariants
(consistent node addresses, strictly descending stack with ROOT at the
bottom, stack indices already shifted in, and — in the closing case —
the gold tree recording ROOT's attachment), `get_oracle` fails exactly
when the configuration is complete (checked first, for every graph),
and otherwise returns exactly the spec's decision procedure. -/
theorem oracle_matches_spec (pp : PartialParse) (g : DepGraph)
    (haddr : ∀ i, (g.nodes i).address = i)
    (hchain : List.Chain' (fun x y => y < x) pp.stack)
    (hbot : pp.stack.getLastD 0 = 0)
    (hnext : ∀ i ∈ pp.stack, i < pp.next)
    (hroot : pp.stack.length = 2 → pp.next = pp.sentence.length →
      goldRecordsDep g 0 (pp.stack.headD 0) = true)
    (hsne : pp.stack ≠ []) :
    (pp.complete = true → pp.get_oracle g = .error "PartialParse already completed") ∧
    (pp.complete = false → pp.get_oracle g = .ok (oracleSpecStep pp g)) := by
  constructor
  · intro hc
    rw [PartialParse.get_oracle]
    simp [hc]
  · intro hc
    rcases hs : pp.stack with _ | ⟨a, _ | ⟨b, _ | ⟨c, r⟩⟩⟩
    · exact absurd hs hsne
    · rw [PartialParse.get_oracle, oracleSpecStep]
      simp [hc, hs]
    · -- stack of two: the bottom is ROOT
      have hb0 : b = 0 := by
        rw [hs] at hbot
        simpa [List.getLastD_cons] using hbot
      subst hb0
      by_cases hn : pp.next = pp.sentence.length
      · have hmem : goldRecordsDep g 0 (pp.stack.headD 0) = true :=
          hroot (by rw [hs]; rfl) hn
        rw [hs] at hmem
        simp only [List.headD_cons] at hmem
        have hrd : is_right_dep (g.nodes 0) a = (true, goldRel (g.nodes 0) a) := by
          rw [is_right_dep, if_neg (by rw [haddr 0]; omega)]
          have h1 := findRel_fst a (g.nodes 0).deps
          have h2 := findRel_snd a (g.nodes 0).deps
          rw [goldRecordsDep, get_deps] at hmem
          rcases hfr : findRel (g.nodes 0).deps a with ⟨fl, lb⟩
          rw [hfr] at h1 h2
          simp only at h1 h2
          rw [goldRel, ← h2, h1, hmem]
        rw [PartialParse.get_oracle, oracleSpecStep]
        simp [hc, hs, hn, List.getLastD_cons, hrd]
      · rw [PartialParse.get_oracle, oracleSpecStep]
        simp [hc, hs, hn]
    · -- stack of three or more
      have hba : b < a := by
        rw [hs] at hchain
        exact (List.chain'_cons.mp hchain).1
      have han : a < pp.next := hnext a (by rw [hs]; simp)
      have hld : is_left_dep (g.nodes a) b =
          (goldRecordsDep g a b, goldRel (g.nodes a) b) := by
        rw [is_left_dep, if_neg (by rw [haddr a]; omega)]
        have h1 := findRel_fst b (g.nodes a).deps
        have h2 := findRel_snd b (g.nodes a).deps
        rcases hfr : findRel (g.nodes a).deps b with ⟨fl, lb⟩
        rw [hfr] at h1 h2
        simp only at h1 h2
        rw [goldRecordsDep, get_deps, goldRel, ← h1, ← h2]
      have hrd : is_right_dep (g.nodes b) a =
          (goldRecordsDep g b a, goldRel (g.nodes b) a) := by
        rw [is_right_dep, if_neg (by rw [haddr b]; omega)]
        have h1 := findRel_fst a (g.nodes b).deps
        have h2 := findRel_snd a (g.nodes b).deps
        rcases hfr : findRel (g.nodes b).deps a with ⟨fl, lb⟩
        rw [hfr] at h1 h2
        simp only at h1 h2
        rw [goldRecordsDep, get_deps, goldRel, ← h1, ← h2]
      have hany : (get_right_deps (g.nodes a)).any (fun x => decide (pp.next ≤ x)) =
          (get_deps (g.nodes a)).any (fun x => decide (pp.next ≤ x)) := by
        rw [get_right_deps, haddr a]
        exact any_filter_ge a pp.next han (get_deps (g.nodes a))
      have hle : (decide (b ≤ (g.nodes a).address)) = true := by
        rw [haddr a]
        simp
        omega
      rw [PartialParse.get_oracle, oracleSpecStep]
      simp only [hc, hs, List.length_cons, List.headD_cons, List.tail_cons,
        Bool.false_eq_true, if_false, hld, hrd, hany, hle, Bool.and_true]
      have hne1 : ¬ (r.length + 1 + 1 + 1 = 1) := by omega
      have hne2 : ¬ (r.length + 1 + 1 + 1 = 2) := by omega
      simp only [hne1, hne2, if_false]
      split_ifs <;> rfl

/-- A mid-parse configuration of the `sentence5` oracle run (after
eight transitions: stack ROOT, word 1, word 5). -/
def ppMid5 : PartialParse :=
  { sentence :=
      [(none, "TOP"), (some "word_1", "tag_1"), (some "word_2", "tag_2"),
       (some "word_3", "tag_3"), (some "word_4", "tag_4"), (some "word_5", "tag_5")]
    stack := [5, 1, 0]
    next := 6
    arcs := [(3, 2, some "deprel_2"), (3, 4, some "deprel_4"), (5, 3, some "deprel_3")] }

/-- Witness for C1 at a concrete configuration and gold graph. -/
theorem oracle_matches_spec_witness :
    (ppMid5.complete = true →
      ppMid5.get_oracle goldGraph5 = .error "PartialParse already completed") ∧
    (ppMid5.complete = false →
      ppMid5.get_oracle goldGraph5 = .ok (oracleSpecStep ppMid5 goldGraph5)) :=
  oracle_matches_spec ppMid5 goldGraph5
    (fun i => by
      rcases i with _ | (_ | (_ | (_ | (_ | (_ | i))))) <;> rfl)
    (by simp [ppMid5, List.chain'_cons]) (by decide) (by decide) (by decide) (by decide)

/-- The external predictive model of `minibatch_parse`: one
`(transition, label)` proposal per state (the spec's model boundary
guarantees the returned batch has the input batch's length). -/
def Model : Type := List PartialParse → List (Int × Option String)

/-- Read the parse at index `i` of the working list (indices used by
the driver are always in range; the default is never reached there). -/
def getPP (pps : List PartialParse) (i : Nat) : PartialParse :=
  pps.getD i (PartialParse.mk [] [] 0 [])

/-- The per-minibatch loop of `minibatch_parse`: walk the minibatch
positions in order carrying the working states; a failed step leaves
the state and marks the position (twice when the state was already
complete, since the `complete` check runs after the `except` as well);
a successful step stores the new state and marks the position when the
new state is complete. -/
def passGo (tds : List (Int × Option String)) :
    List Nat → Nat → List PartialParse → List PartialParse × List Nat
  | [], _, pps => (pps, [])
  | q :: rest, i, pps =>
    let pp := getPP pps q
    let td := tds.getD i (0, none)
    match pp.parse_step td.1 td.2 with
    | .error _ =>
      let res := passGo tds rest (i + 1) pps
      (res.1, (if pp.complete then [i, i] else [i]) ++ res.2)
    | .ok pp1 =>
      let res := passGo tds rest (i + 1) (pps.set q pp1)
      (res.1, (if pp1.complete then [i] else []) ++ res.2)

/-- Python `del unfinished[i]`: delete by position, raising an
`IndexError` when out of range. -/
def delAt (l : List Nat) (i : Nat) : Except String (List Nat) :=
  if i < l.length then .ok (l.eraseIdx i)
  else .error "IndexError: list assignment index out of range"

/-- The deletion loop `for i in reversed(to_del): del unfinished[i]`
(the argument is already reversed). -/
def delSeq (l : List Nat) : List Nat → Except String (List Nat)
  | [] => .ok l
  | i :: rest =>
    match delAt l i with
    | .ok l' => delSeq l' rest
    | .error e => .error e

/-- One iteration of the `while` loop of `minibatch_parse`: slice the
minibatch prefix, ask the model once, apply each prediction, and delete
the marked positions in reversed order. -/
def onePass (model : Model) (batch_size : Nat) (pps : List PartialParse)
    (unfinished : List Nat) : Except String (List PartialParse × List Nat) :=
  let minibatch := unfinished.take batch_size
  let tds := model (minibatch.map (getPP pps))
  let res := passGo tds minibatch 0 pps
  match delSeq unfinished res.2.reverse with
  | .ok unf' => .ok (res.1, unf')
  | .error e => .error e

/-- The fuelled `while` loop of `minibatch_parse`; `none` means the
fuel ran out before the unfinished set emptied. -/
def mbLoop (model : Model) (batch_size : Nat) :
    Nat → List PartialParse → List Nat → Option (Except String (List PartialParse))
  | _, pps, [] => some (.ok pps)
  | 0, _, _ => none
  | fuel + 1, pps, unfinished =>
    match onePass model batch_size pps unfinished with
    | .error e => some (.error e)
    | .ok (pps', unf') => mbLoop model batch_size fuel pps' unf'

/-- `minibatch_parse`: one state per sentence, all initially
unfinished; loop; collect every state's arcs in input order. -/
def minibatch_parse (sentences : List (List (String × String))) (model : Model)
    (batch_size fuel : Nat) : Option (Except String (List (List Arc))) :=
  let pps := sentences.map PartialParse.initial
  match mbLoop model batch_size fuel pps (List.range pps.length) with
  | some (.ok fin) => some (.ok (fin.map (fun pp => pp.arcs)))
  | some (.error e) => some (.error e)
  | none => none

/-- A model that always proposes a shift. -/
def shiftModel : Model :=
  fun pps => pps.map (fun _ => (PartialParse.shift_id, none))

/-- C7 counterexample: on a batch holding one empty sentence the driver
raises an `IndexError` to its caller.  The empty sentence's state is
complete from the start, so its failed step marks its position twice
(`except` branch and `complete` check), and the reversed deletion loop
deletes past the end of the unfinished list. -/
theorem minibatch_claim_fails :
    minibatch_parse [[]] shiftModel 1 5 =
      some (.error "IndexError: list assignment index out of range") := rfl

/-- Keep the elements of `l` whose position (offset by `j`) is not in
`d`: the intended effect of the reversed deletion loop. -/
def rmPosAux (d : List Nat) : Nat → List Nat → List Nat
  | _, [] => []
  | j, x :: xs => if j ∈ d then rmPosAux d (j + 1) xs else x :: rmPosAux d (j + 1) xs

/-- Keep the elements of `l` whose position is not in `d`. -/
def rmPos (l : List Nat) (d : List Nat) : List Nat := rmPosAux d 0 l

theorem rmPosAux_nil : ∀ (l : List Nat) (j : Nat), rmPosAux [] j l = l
  | [], _ => rfl
  | x :: xs, j => by simp [rmPosAux, rmPosAux_nil xs (j + 1)]

theorem rmPosAux_sublist (d : List Nat) :
    ∀ (l : List Nat) (j : Nat), List.Sublist (rmPosAux d j l) l
  | [], _ => List.Sublist.refl _
  | x :: xs, j => by
    rw [rmPosAux]
    split_ifs
    · exact List.Sublist.cons x (rmPosAux_sublist d xs (j + 1))
    · exact List.Sublist.cons₂ x (rmPosAux_sublist d xs (j + 1))

/-- Positions strictly below every deleted index are unaffected by a
leading deleted index. -/
theorem rmPosAux_cons_lt (i : Nat) (rest : List Nat) :
    ∀ (l : List Nat) (j : Nat), i < j → rmPosAux (i :: rest) j l = rmPosAux rest j l
  | [], _, _ => rfl
  | x :: xs, j, hij => by
    have hne : ¬ j = i := by omega
    by_cases hj : j ∈ rest <;>
      simp [rmPosAux, hj, hne, rmPosAux_cons_lt i rest xs (j + 1) (by omega)]

/-- Erasing position `i - j` from the keep-list of `rest` (all beyond
`i`) keeps exactly the positions outside `i :: rest`. -/
theorem rmPosAux_eraseIdx (i : Nat) (rest : List Nat) (hrest : ∀ m ∈ rest, i < m) :
    ∀ (l : List Nat) (j : Nat), j ≤ i →
      (rmPosAux rest j l).eraseIdx (i - j) = rmPosAux (i :: rest) j l
  | [], j, hj => by simp [rmPosAux]
  | x :: xs, j, hj => by
    have hjr : j ∉ rest := fun hm => absurd (hrest j hm) (by omega)
    by_cases hji : j = i
    · subst hji
      rw [rmPosAux, if_neg hjr, Nat.sub_self]
      rw [rmPosAux, if_pos (List.mem_cons_self j rest)]
      rw [List.eraseIdx_cons_zero]
      exact (rmPosAux_cons_lt j rest xs (j + 1) (by omega)).symm
    · have hji' : j < i := by omega
      have hjir : j ∉ i :: rest := by
        intro hm
        rcases List.mem_cons.mp hm with h | h
        · omega
        · exact hjr h
      rw [rmPosAux, if_neg hjr]
      rw [rmPosAux, if_neg hjir]
      have hsub : i - j = (i - (j + 1)) + 1 := by omega
      rw [hsub, List.eraseIdx_cons_succ]
      exact congrArg (fun z => x :: z)
        (rmPosAux_eraseIdx i rest hrest xs (j + 1) (by omega))

/-- The keep-list retains at least the positions up to `i` when every
deleted index is beyond `i`. -/
theorem rmPosAux_length_keep (d : List Nat) (i : Nat) (hd : ∀ m ∈ d, i < m) :
    ∀ (l : List Nat) (j : Nat), j ≤ i → i - j < l.length →
      i - j < (rmPosAux d j l).length
  | [], _, _, h => by simp at h
  | x :: xs, j, hj, hlen => by
    have hjd : j ∉ d := fun hm => absurd (hd j hm) (by omega)
    rw [rmPosAux, if_neg hjd]
    by_cases hji : j = i
    · subst hji; simp
    · have h1 : i - j = (i - (j + 1)) + 1 := by omega
      rw [h1]
      simp only [List.length_cons]
      have := rmPosAux_length_keep d i hd xs (j + 1) (by omega)
        (by simp only [List.length_cons] at hlen; omega)
      omega

theorem delSeq_append : ∀ (d1 : List Nat) (l : List Nat) (d2 : List Nat),
    delSeq l (d1 ++ d2) =
      match delSeq l d1 with
      | .ok l' => delSeq l' d2
      | .error e => .error e
  | [], l, d2 => rfl
  | i :: rest, l, d2 => by
    rw [List.cons_append, delSeq, delSeq]
    cases h : delAt l i <;> simp [h, delSeq_append rest _ d2]

/-- The reversed deletion loop succeeds on a strictly increasing,
in-range position list and keeps exactly the unmarked positions. -/
theorem delSeq_rmPos : ∀ (d : List Nat) (l : List Nat),
    List.Chain' (fun x y => x < y) d → (∀ m ∈ d, m < l.length) →
    delSeq l d.reverse = .ok (rmPos l d)
  | [], l, _, _ => by simp [delSeq, rmPos, rmPosAux_nil]
  | i :: rest, l, hch, hbd => by
    have hrest_gt : ∀ m ∈ rest, i < m :=
      (List.pairwise_cons.mp (List.chain'_iff_pairwise.mp hch)).1
    have hbd' : ∀ m ∈ rest, m < l.length := fun m hm => hbd m (List.mem_cons_of_mem i hm)
    have hred : delSeq l ((i :: rest).reverse) = delSeq (rmPos l rest) [i] := by
      rw [List.reverse_cons, delSeq_append rest.reverse l [i],
        delSeq_rmPos rest l hch.tail hbd']
    rw [hred]
    have hlen : i < (rmPos l rest).length := by
      have := rmPosAux_length_keep rest i hrest_gt l 0 (by omega)
        (by simpa using hbd i (List.mem_cons_self i rest))
      simpa [rmPos] using this
    rw [delSeq, delAt, if_pos hlen]
    show Except.ok ((rmPos l rest).eraseIdx i) = Except.ok (rmPos l (i :: rest))
    rw [rmPos, rmPos]
    have := rmPosAux_eraseIdx i rest hrest_gt l 0 (by omega)
    simpa using this

/-- On a duplicate-free list, the element at position `j` survives the
keep-list exactly when position `j` (offset by `j0`) is unmarked. -/
theorem rmPosAux_getD_mem (d : List Nat) :
    ∀ (l : List Nat) (j0 : Nat), l.Nodup → ∀ j, j < l.length →
      (l.getD j 0 ∈ rmPosAux d j0 l ↔ (j0 + j) ∉ d)
  | [], _, _, j, hj => by simp at hj
  | x :: xs, j0, hnd, j, hj => by
    obtain ⟨hx, hnd'⟩ := List.nodup_cons.mp hnd
    rcases j with _ | k
    · by_cases h0 : j0 ∈ d
      · rw [rmPosAux, if_pos h0]
        simp only [Nat.add_zero, List.getD_cons_zero]
        constructor
        · intro hmem
          exact absurd ((rmPosAux_sublist d xs (j0 + 1)).subset hmem) hx
        · intro hnot
          exact absurd h0 hnot
      · rw [rmPosAux, if_neg h0]
        simp [h0]
    · have hk : k < xs.length := by
        simp only [List.length_cons] at hj
        omega
      have heq : j0 + (k + 1) = (j0 + 1) + k := by omega
      by_cases h0 : j0 ∈ d
      · rw [rmPosAux, if_pos h0]
        rw [List.getD_cons_succ, heq]
        exact rmPosAux_getD_mem d xs (j0 + 1) hnd' k hk
      · rw [rmPosAux, if_neg h0]
        rw [List.getD_cons_succ, heq]
        have hxs_mem : xs.getD k 0 ∈ xs := by
          rw [List.getD_eq_getElem xs 0 hk]
          exact List.getElem_mem hk
        have hne : ¬ (xs.getD k 0 = x) := fun he => hx (he ▸ hxs_mem)
        rw [List.mem_cons]
        constructor
        · intro hc
          rcases hc with hc | hc
          · exact absurd hc hne
          · exact (rmPosAux_getD_mem d xs (j0 + 1) hnd' k hk).mp hc
        · intro hc
          exact Or.inr ((rmPosAux_getD_mem d xs (j0 + 1) hnd' k hk).mpr hc)

theorem getPP_set_ne (pps : List PartialParse) (q q' : Nat) (x : PartialParse)
    (h : ¬ q' = q) : getPP (pps.set q' x) q = getPP pps q := by
  rw [getPP, getPP, List.getD_eq_getElem?_getD, List.getD_eq_getElem?_getD,
    List.getElem?_set_ne h]

theorem getPP_set_self (pps : List PartialParse) (q : Nat) (x : PartialParse)
    (h : q < pps.length) : getPP (pps.set q x) q = x := by
  rw [getPP, List.getD_eq_getElem?_getD, List.getElem?_set_self h]
  rfl

theorem getD_mem_self (l : List Nat) (k : Nat) (hk : k < l.length) :
    l.getD k 0 ∈ l := by
  rw [List.getD_eq_getElem l 0 hk]
  exact List.getElem_mem hk

/-- Full characterization of the minibatch loop body `passGo`: the
working list keeps its length; states outside the minibatch are
untouched; every mark lies in the processed position range; under the
no-initially-complete invariant the marks are strictly increasing; and
at each position the state and the mark are exactly as the source
dictates (failed step: state kept, position marked; successful step:
new state stored, position marked iff the new state is complete). -/
theorem passGo_spec (tds : List (Int × Option String)) :
    ∀ (mb : List Nat) (i : Nat) (pps : List PartialParse),
      mb.Nodup → (∀ q ∈ mb, q < pps.length) →
      ((passGo tds mb i pps).1.length = pps.length) ∧
      (∀ q, q ∉ mb → getPP (passGo tds mb i pps).1 q = getPP pps q) ∧
      (∀ m ∈ (passGo tds mb i pps).2, i ≤ m ∧ m < i + mb.length) ∧
      ((∀ q ∈ mb, (getPP pps q).complete = false) →
        List.Chain' (fun x y => x < y) (passGo tds mb i pps).2) ∧
      (∀ j, j < mb.length →
        (match (getPP pps (mb.getD j 0)).parse_step (tds.getD (i + j) (0, none)).1
            (tds.getD (i + j) (0, none)).2 with
         | .error _ =>
             getPP (passGo tds mb i pps).1 (mb.getD j 0) = getPP pps (mb.getD j 0) ∧
             (i + j) ∈ (passGo tds mb i pps).2
         | .ok pp1 =>
             getPP (passGo tds mb i pps).1 (mb.getD j 0) = pp1 ∧
             ((i + j) ∈ (passGo tds mb i pps).2 ↔ pp1.complete = true)))
  | [], i, pps, _, _ => by
    refine ⟨rfl, fun q _ => rfl, by simp [passGo], fun _ => by simp [passGo],
      fun j hj => by simp at hj⟩
  | qh :: rest, i, pps, hnd, hbd => by
    obtain ⟨hqh, hnd'⟩ := List.nodup_cons.mp hnd
    rcases hstep : (getPP pps qh).parse_step (tds.getD i (0, none)).1
        (tds.getD i (0, none)).2 with e | pp1
    · obtain ⟨ih1, ih2, ih3, ih4, ih5⟩ :=
        passGo_spec tds rest (i + 1) pps hnd'
          (fun q hq => hbd q (List.mem_cons_of_mem qh hq))
      have hres : passGo tds (qh :: rest) i pps =
          ((passGo tds rest (i + 1) pps).1,
           (if (getPP pps qh).complete then [i, i] else [i]) ++
             (passGo tds rest (i + 1) pps).2) := by
        simp only [passGo, hstep]
      refine ⟨by rw [hres]; exact ih1, ?_, ?_, ?_, ?_⟩
      · intro q hq
        rw [hres]
        exact ih2 q (fun h => hq (List.mem_cons_of_mem qh h))
      · intro m hm
        rw [hres] at hm
        simp only [List.mem_append] at hm
        rcases hm with hm | hm
        · constructor
          · by_cases hc : (getPP pps qh).complete <;> simp [hc] at hm <;> omega
          · by_cases hc : (getPP pps qh).complete <;> simp [hc] at hm <;> simp <;> omega
        · obtain ⟨h1, h2⟩ := ih3 m hm
          constructor
          · omega
          · simp only [List.length_cons]
            omega
      · intro hncm
        have hc : (getPP pps qh).complete = false :=
          hncm qh (List.mem_cons_self qh rest)
        rw [hres]
        simp only [hc, Bool.false_eq_true, if_false, List.singleton_append]
        rw [List.chain'_cons']
        constructor
        · intro y hy
          exact (ih3 y (List.mem_of_mem_head? hy)).1
        · exact ih4 (fun q hq => hncm q (List.mem_cons_of_mem qh hq))
      · intro j hj
        rcases j with _ | k
        · simp only [List.getD_cons_zero, Nat.add_zero]
          rw [hstep, hres]
          constructor
          · exact ih2 qh hqh
          · by_cases hc : (getPP pps qh).complete <;> simp [hc]
        · have hk : k < rest.length := by
            simp only [List.length_cons] at hj
            omega
          have hik : i + (k + 1) = (i + 1) + k := by omega
          simp only [List.getD_cons_succ, hik]
          have ih5k := ih5 k hk
          rcases hstep2 : (getPP pps (rest.getD k 0)).parse_step
              (tds.getD ((i + 1) + k) (0, none)).1
              (tds.getD ((i + 1) + k) (0, none)).2 with e2 | pp2
          · rw [hstep2] at ih5k
            rw [hres]
            refine ⟨ih5k.1, List.mem_append.mpr (Or.inr ih5k.2)⟩
          · rw [hstep2] at ih5k
            rw [hres]
            refine ⟨ih5k.1, ?_⟩
            rw [List.mem_append]
            constructor
            · intro hm
              rcases hm with hm | hm
              · by_cases hc : (getPP pps qh).complete <;> simp [hc] at hm <;> omega
              · exact ih5k.2.mp hm
            · intro hc
              exact Or.inr (ih5k.2.mpr hc)
    · obtain ⟨ih1, ih2, ih3, ih4, ih5⟩ :=
        passGo_spec tds rest (i + 1) (pps.set qh pp1) hnd'
          (fun q hq => by
            rw [List.length_set]
            exact hbd q (List.mem_cons_of_mem qh hq))
      have hres : passGo tds (qh :: rest) i pps =
          ((passGo tds rest (i + 1) (pps.set qh pp1)).1,
           (if pp1.complete then [i] else []) ++
             (passGo tds rest (i + 1) (pps.set qh pp1)).2) := by
        simp only [passGo, hstep]
      refine ⟨?_, ?_, ?_, ?_, ?_⟩
      · rw [hres]
        rw [ih1, List.length_set]
      · intro q hq
        rw [hres]
        rw [ih2 q (fun h => hq (List.mem_cons_of_mem qh h))]
        exact getPP_set_ne pps q qh pp1 (fun h => hq (h ▸ List.mem_cons_self qh rest))
      · intro m hm
        rw [hres] at hm
        simp only [List.mem_append] at hm
        rcases hm with hm | hm
        · by_cases hc : pp1.complete <;> simp [hc] at hm
          subst hm
          simp only [List.length_cons]
          omega
        · obtain ⟨h1, h2⟩ := ih3 m hm
          constructor
          · omega
          · simp only [List.length_cons]
            omega
      · intro hncm
        have hncm' : ∀ q ∈ rest, (getPP (pps.set qh pp1) q).complete = false := by
          intro q hq
          rw [getPP_set_ne pps q qh pp1 (fun h => hqh (h ▸ hq))]
          exact hncm q (List.mem_cons_of_mem qh hq)
        rw [hres]
        by_cases hc : pp1.complete
        · simp only [hc, if_true, List.singleton_append]
          rw [List.chain'_cons']
          constructor
          · intro y hy
            exact (ih3 y (List.mem_of_mem_head? hy)).1
          · exact ih4 hncm'
        · simp only [hc, Bool.false_eq_true, if_false, List.nil_append]
          exact ih4 hncm'
      · intro j hj
        rcases j with _ | k
        · simp only [List.getD_cons_zero, Nat.add_zero]
          rw [hstep, hres]
          constructor
          · rw [ih2 qh hqh]
            exact getPP_set_self pps qh pp1 (hbd qh (List.mem_cons_self qh rest))
          · rw [List.mem_append]
            constructor
            · intro hm
              rcases hm with hm | hm
              · by_cases hc : pp1.complete
                · exact hc
                · simp [hc] at hm
              · exact absurd (ih3 i hm).1 (by omega)
            · intro hc
              simp [hc]
        · have hk : k < rest.length := by
            simp only [List.length_cons] at hj
            omega
          have hik : i + (k + 1) = (i + 1) + k := by omega
          simp only [List.getD_cons_succ, hik]
          have hne : ¬ qh = rest.getD k 0 := fun h => hqh (h ▸ getD_mem_self rest k hk)
          have hgp : getPP (pps.set qh pp1) (rest.getD k 0) = getPP pps (rest.getD k 0) :=
            getPP_set_ne pps (rest.getD k 0) qh pp1 hne
          have ih5k := ih5 k hk
          rw [hgp] at ih5k
          rcases hstep2 : (getPP pps (rest.getD k 0)).parse_step
              (tds.getD ((i + 1) + k) (0, none)).1
              (tds.getD ((i + 1) + k) (0, none)).2 with e2 | pp2
          · rw [hstep2] at ih5k
            rw [hres]
            refine ⟨ih5k.1, List.mem_append.mpr (Or.inr ih5k.2)⟩
          · rw [hstep2] at ih5k
            rw [hres]
            refine ⟨ih5k.1, ?_⟩
            rw [List.mem_append]
            constructor
            · intro hm
              rcases hm with hm | hm
              · by_cases hc : pp1.complete <;> simp [hc] at hm <;> omega
              · exact ih5k.2.mp hm
            · intro hc
              exact Or.inr (ih5k.2.mpr hc)

theorem onePass_eq (model : Model) (bs : Nat) (pps : List PartialParse)
    (unfinished : List Nat) :
    onePass model bs pps unfinished =
      match delSeq unfinished
          (passGo (model ((unfinished.take bs).map (getPP pps)))
            (unfinished.take bs) 0 pps).2.reverse with
      | .ok unf' =>
          .ok ((passGo (model ((unfinished.take bs).map (getPP pps)))
            (unfinished.take bs) 0 pps).1, unf')
      | .error e => .error e := rfl


/-- One driver pass on an invariant-respecting state: it never raises,
keeps the working list's length, removes exactly the failed and the
newly complete minibatch members from the unfinished list (in the same
pass), leaves states outside the minibatch untouched, and keeps only
incomplete parses unfinished. -/
theorem onePass_spec (model : Model) (bs : Nat) (pps : List PartialParse)
    (unfinished : List Nat) (hnd : unfinished.Nodup)
    (hlt : ∀ q ∈ unfinished, q < pps.length)
    (hnc : ∀ q ∈ unfinished, (getPP pps q).complete = false) :
    ∃ pps' unf',
      onePass model bs pps unfinished = .ok (pps', unf') ∧
      pps'.length = pps.length ∧
      List.Sublist unf' unfinished ∧
      (∀ q, q ∉ unfinished.take bs → getPP pps' q = getPP pps q) ∧
      (∀ q ∈ unf', (getPP pps' q).complete = false) ∧
      (∀ j, j < (unfinished.take bs).length →
        (match (getPP pps ((unfinished.take bs).getD j 0)).parse_step
            ((model ((unfinished.take bs).map (getPP pps))).getD j (0, none)).1
            ((model ((unfinished.take bs).map (getPP pps))).getD j (0, none)).2 with
         | .error _ =>
             getPP pps' ((unfinished.take bs).getD j 0) =
               getPP pps ((unfinished.take bs).getD j 0) ∧
             (unfinished.take bs).getD j 0 ∉ unf'
         | .ok pp1 =>
             getPP pps' ((unfinished.take bs).getD j 0) = pp1 ∧
             ((unfinished.take bs).getD j 0 ∈ unf' ↔ pp1.complete = false))) := by
  have hmbsub : List.Sublist (unfinished.take bs) unfinished :=
    List.take_sublist bs unfinished
  have hmblen : (unfinished.take bs).length ≤ unfinished.length := by
    rw [List.length_take]
    omega
  obtain ⟨hg1, hg2, hg3, hg4, hg5⟩ :=
    passGo_spec (model ((unfinished.take bs).map (getPP pps)))
      (unfinished.take bs) 0 pps (List.Nodup.sublist hmbsub hnd)
      (fun q hq => hlt q (hmbsub.subset hq))
  have hdel : delSeq unfinished
      (passGo (model ((unfinished.take bs).map (getPP pps)))
        (unfinished.take bs) 0 pps).2.reverse =
      .ok (rmPos unfinished
        (passGo (model ((unfinished.take bs).map (getPP pps)))
          (unfinished.take bs) 0 pps).2) :=
    delSeq_rmPos _ unfinished (hg4 (fun q hq => hnc q (hmbsub.subset hq)))
      (fun m hm => by have := (hg3 m hm).2; omega)
  have hmem_iff : ∀ j, j < unfinished.length →
      (unfinished.getD j 0 ∈ rmPos unfinished
        (passGo (model ((unfinished.take bs).map (getPP pps)))
          (unfinished.take bs) 0 pps).2 ↔
        j ∉ (passGo (model ((unfinished.take bs).map (getPP pps)))
          (unfinished.take bs) 0 pps).2) := by
    intro j hj
    have := rmPosAux_getD_mem
      (passGo (model ((unfinished.take bs).map (getPP pps)))
        (unfinished.take bs) 0 pps).2 unfinished 0 hnd j hj
    simpa [rmPos] using this
  have htake_getD : ∀ j, j < (unfinished.take bs).length →
      (unfinished.take bs).getD j 0 = unfinished.getD j 0 := by
    intro j hj
    rw [List.getD_eq_getElem (unfinished.take bs) 0 hj,
      List.getD_eq_getElem unfinished 0 (by omega), List.getElem_take]
  refine ⟨(passGo (model ((unfinished.take bs).map (getPP pps)))
      (unfinished.take bs) 0 pps).1,
    rmPos unfinished (passGo (model ((unfinished.take bs).map (getPP pps)))
      (unfinished.take bs) 0 pps).2,
    by rw [onePass_eq, hdel], hg1, rmPosAux_sublist _ unfinished 0,
    hg2, ?_, ?_⟩
  · -- survivors are incomplete
    intro q hq
    have hqu : q ∈ unfinished := (rmPosAux_sublist _ unfinished 0).subset hq
    obtain ⟨t, ht, hqt⟩ := List.getElem_of_mem hqu
    have hqtD : unfinished.getD t 0 = q := by
      rw [List.getD_eq_getElem unfinished 0 ht, hqt]
    have htD : t ∉ (passGo (model ((unfinished.take bs).map (getPP pps)))
        (unfinished.take bs) 0 pps).2 := (hmem_iff t ht).mp (hqtD ▸ hq)
    by_cases htmb : t < (unfinished.take bs).length
    · have h5 := hg5 t htmb
      simp only [Nat.zero_add] at h5
      have hqt2 : (unfinished.take bs).getD t 0 = q := (htake_getD t htmb).trans hqtD
      rcases hstep : (getPP pps ((unfinished.take bs).getD t 0)).parse_step
          ((model ((unfinished.take bs).map (getPP pps))).getD t (0, none)).1
          ((model ((unfinished.take bs).map (getPP pps))).getD t (0, none)).2 with e1 | pp1
      · rw [hstep] at h5
        exact absurd h5.2 htD
      · rw [hstep] at h5
        have hc : pp1.complete = false := by
          rcases hcc : pp1.complete with _ | _
          · rfl
          · exact absurd (h5.2.mpr hcc) htD
        rw [hqt2] at h5
        rw [h5.1]
        exact hc
    · have hqnm : q ∉ unfinished.take bs := by
        intro hqm
        obtain ⟨t2, ht2, hqt2⟩ := List.getElem_of_mem hqm
        have ht2u : t2 < unfinished.length := by omega
        have h1 : (unfinished.take bs)[t2] = unfinished[t2] :=
          List.getElem_take unfinished
        have he : unfinished[t2] = unfinished[t] := by
          rw [← h1, hqt2, hqt]
        have := (List.Nodup.getElem_inj_iff hnd).mp he
        omega
      rw [hg2 q hqnm]
      exact hnc q hqu
  · -- per-position outcome of the pass
    intro j hj
    have hju : j < unfinished.length := by omega
    have h5 := hg5 j hj
    simp only [Nat.zero_add] at h5
    have hgd := htake_getD j hj
    rcases hstep : (getPP pps ((unfinished.take bs).getD j 0)).parse_step
        ((model ((unfinished.take bs).map (getPP pps))).getD j (0, none)).1
        ((model ((unfinished.take bs).map (getPP pps))).getD j (0, none)).2 with e1 | pp1
    · rw [hstep] at h5
      refine ⟨h5.1, ?_⟩
      intro hmem
      rw [hgd] at hmem
      exact absurd h5.2 ((hmem_iff j hju).mp hmem)
    · rw [hstep] at h5
      refine ⟨h5.1, ?_⟩
      rw [hgd, hmem_iff j hju]
      constructor
      · intro hnotin
        rcases hcc : pp1.complete with _ | _
        · rfl
        · exact absurd (h5.2.mpr hcc) hnotin
      · intro hfalse hin
        rw [h5.2.mp hin] at hfalse
        exact Bool.noConfusion hfalse

/-- The initial configuration of a non-empty sentence is not complete. -/
theorem initial_not_complete (s : List (String × String)) (hs : s ≠ []) :
    (PartialParse.initial s).complete = false := by
  have hlen : s.length ≠ 0 := fun h => hs (List.eq_nil_of_length_eq_zero h)
  have hcond : ¬ ((PartialParse.initial s).next =
      (PartialParse.initial s).sentence.length) := by
    simp only [PartialParse.initial, List.length_cons, List.length_map]
    omega
  rw [PartialParse.complete, if_neg hcond]

/-- The driver loop on an invariant-respecting state never raises, and
when it finishes within its fuel the working list keeps its length. -/
theorem mbLoop_spec (model : Model) (bs : Nat) :
    ∀ (fuel : Nat) (pps : List PartialParse) (unfinished : List Nat),
      unfinished.Nodup → (∀ q ∈ unfinished, q < pps.length) →
      (∀ q ∈ unfinished, (getPP pps q).complete = false) →
      (∀ e, mbLoop model bs fuel pps unfinished ≠ some (.error e)) ∧
      (∀ fin, mbLoop model bs fuel pps unfinished = some (.ok fin) →
        fin.length = pps.length)
  | fuel, pps, [], _, _, _ => by
    constructor
    · intro e h
      rcases fuel with _ | fuel <;> simp [mbLoop] at h
    · intro fin h
      rcases fuel with _ | fuel <;>
        · simp [mbLoop] at h
          rw [← h]
  | 0, pps, u :: us, _, _, _ => by
    constructor
    · intro e h
      simp [mbLoop] at h
    · intro fin h
      simp [mbLoop] at h
  | fuel + 1, pps, u :: us, hnd, hlt, hnc => by
    obtain ⟨pps', unf', hone, hlen, hsub, huntouched, hnc', hjs⟩ :=
      onePass_spec model bs pps (u :: us) hnd hlt hnc
    have hred : mbLoop model bs (fuel + 1) pps (u :: us) =
        mbLoop model bs fuel pps' unf' := by
      simp only [mbLoop, hone]
    obtain ⟨iherr, ihok⟩ := mbLoop_spec model bs fuel pps' unf'
      (List.Nodup.sublist hsub hnd)
      (fun q hq => by rw [hlen]; exact hlt q (hsub.subset hq)) hnc'
    rw [hred]
    exact ⟨iherr, fun fin hfin => (ihok fin hfin).trans hlen⟩

/-- The minibatch loop body never changes the number of working
states. -/
theorem passGo_length (tds : List (Int × Option String)) :
    ∀ (mb : List Nat) (i : Nat) (pps : List PartialParse),
      (passGo tds mb i pps).1.length = pps.length
  | [], _, _ => rfl
  | q :: rest, i, pps => by
    rcases hstep : (getPP pps q).parse_step (tds.getD i (0, none)).1
        (tds.getD i (0, none)).2 with e | pp1 <;>
      simp only [passGo, hstep]
    · exact passGo_length tds rest (i + 1) pps
    · rw [passGo_length tds rest (i + 1) (pps.set q pp1), List.length_set]

/-- A successful driver loop never changes the number of working
states (no invariant needed). -/
theorem mbLoop_length (model : Model) (bs : Nat) :
    ∀ (fuel : Nat) (pps : List PartialParse) (unfinished : List Nat)
      (fin : List PartialParse),
      mbLoop model bs fuel pps unfinished = some (.ok fin) →
      fin.length = pps.length
  | fuel, pps, [], fin, h => by
    rcases fuel with _ | f <;>
      · simp [mbLoop] at h
        rw [← h]
  | 0, pps, u :: us, fin, h => by simp [mbLoop] at h
  | fuel + 1, pps, u :: us, fin, h => by
    rcases hone : onePass model bs pps (u :: us) with e | pr
    · simp [mbLoop, hone] at h
    · obtain ⟨pps', unf'⟩ := pr
      simp only [mbLoop, hone] at h
      have hrec := mbLoop_length model bs fuel pps' unf' fin h
      have hlen : pps'.length = pps.length := by
        rw [onePass_eq] at hone
        rcases hdel : delSeq (u :: us)
            (passGo (model (((u :: us).take bs).map (getPP pps)))
              ((u :: us).take bs) 0 pps).2.reverse with e2 | unf2 <;>
          rw [hdel] at hone
        · exact absurd hone (by simp)
        · simp only [Except.ok.injEq, Prod.mk.injEq] at hone
          rw [← hone.1]
          exact passGo_length _ _ 0 pps
      rw [hrec, hlen]

/-- C7 (amended): the driver returns one arc list per input sentence in
input order (each produced by that sentence's own configuration);
provided every sentence is non-empty it never raises; and each pass
removes exactly the failed (state unchanged by the failed step) and the
newly completed minibatch members from the unfinished set, leaving all
other parses untouched.  (Unamended, the claim fails on a batch holding
an empty sentence.) -/
theorem minibatch_parse_behavior :
    (∀ (sentences : List (List (String × String))) (model : Model) (bs fuel : Nat),
       (∀ s ∈ sentences, s ≠ []) →
       ∀ e, minibatch_parse sentences model bs fuel ≠ some (.error e)) ∧
    (∀ (sentences : List (List (String × String))) (model : Model) (bs fuel : Nat)
       (out : List (List Arc)),
       minibatch_parse sentences model bs fuel = some (.ok out) →
       out.length = sentences.length) ∧
    (∀ (model : Model) (bs : Nat) (pps : List PartialParse) (unfinished : List Nat),
       unfinished.Nodup → (∀ q ∈ unfinished, q < pps.length) →
       (∀ q ∈ unfinished, (getPP pps q).complete = false) →
       ∃ pps' unf',
         onePass model bs pps unfinished = .ok (pps', unf') ∧
         pps'.length = pps.length ∧
         List.Sublist unf' unfinished ∧
         (∀ q, q ∉ unfinished.take bs → getPP pps' q = getPP pps q) ∧
         (∀ q ∈ unf', (getPP pps' q).complete = false) ∧
         (∀ j, j < (unfinished.take bs).length →
           (match (getPP pps ((unfinished.take bs).getD j 0)).parse_step
               ((model ((unfinished.take bs).map (getPP pps))).getD j (0, none)).1
               ((model ((unfinished.take bs).map (getPP pps))).getD j (0, none)).2 with
            | .error _ =>
                getPP pps' ((unfinished.take bs).getD j 0) =
                  getPP pps ((unfinished.take bs).getD j 0) ∧
                (unfinished.take bs).getD j 0 ∉ unf'
            | .ok pp1 =>
                getPP pps' ((unfinished.take bs).getD j 0) = pp1 ∧
                ((unfinished.take bs).getD j 0 ∈ unf' ↔ pp1.complete = false)))) := by
  refine ⟨?_, ?_, onePass_spec⟩
  · intro sentences model bs fuel hne e h
    have h3 : ∀ q ∈ List.range (sentences.map PartialParse.initial).length,
        (getPP (sentences.map PartialParse.initial) q).complete = false := by
      intro q hq
      have hql : q < (sentences.map PartialParse.initial).length := List.mem_range.mp hq
      have hqs : q < sentences.length := by
        rw [List.length_map] at hql
        exact hql
      have hgd : getPP (sentences.map PartialParse.initial) q =
          PartialParse.initial sentences[q] := by
        rw [getPP, List.getD_eq_getElem _ _ hql, List.getElem_map]
      rw [hgd]
      exact initial_not_complete _ (hne _ (List.getElem_mem hqs))
    obtain ⟨herr, -⟩ := mbLoop_spec model bs fuel (sentences.map PartialParse.initial)
      (List.range (sentences.map PartialParse.initial).length)
      (List.nodup_range _) (fun q hq => List.mem_range.mp hq) h3
    rcases hml : mbLoop model bs fuel (sentences.map PartialParse.initial)
        (List.range (sentences.map PartialParse.initial).length) with _ | ex
    · rw [minibatch_parse, hml] at h
      exact Option.noConfusion h
    · rcases ex with e2 | fin
      · exact herr e2 hml
      · rw [minibatch_parse, hml] at h
        simp at h
  · intro sentences model bs fuel out h
    rcases hml : mbLoop model bs fuel (sentences.map PartialParse.initial)
        (List.range (sentences.map PartialParse.initial).length) with _ | ex
    · rw [minibatch_parse, hml] at h
      exact Option.noConfusion h
    · rcases ex with e2 | fin
      · rw [minibatch_parse, hml] at h
        simp at h
      · rw [minibatch_parse, hml] at h
        simp only [Option.some.injEq, Except.ok.injEq] at h
        have hfl := mbLoop_length model bs fuel (sentences.map PartialParse.initial)
          (List.range (sentences.map PartialParse.initial).length) fin hml
        rw [← h, List.length_map, hfl, List.length_map]

/-- Witness for C7's amended theorem at a concrete one-sentence batch. -/
theorem minibatch_parse_behavior_witness :
    (minibatch_parse [[("w", "t")]] shiftModel 1 5 ≠
      some (.error "IndexError: list assignment index out of range")) ∧
    (([([] : List Arc)] : List (List Arc)).length =
      ([[("w", "t")]] : List (List (String × String))).length) ∧
    (∃ pps' unf', onePass shiftModel 1 [PartialParse.initial [("w", "t")]] [0] =
      .ok (pps', unf')) := by
  obtain ⟨h1, h2, h3⟩ := minibatch_parse_behavior
  refine ⟨h1 [[("w", "t")]] shiftModel 1 5 (by decide) _,
    h2 [[("w", "t")]] shiftModel 1 5 [([] : List Arc)] rfl, ?_⟩
  obtain ⟨pps', unf', hone, -⟩ := h3 shiftModel 1 [PartialParse.initial [("w", "t")]]
    [0] (by decide) (by decide) (by decide)
  exact ⟨pps', unf', hone⟩
